import Mathlib

/-!
Verification development for the NoGo MCTS agent (`src/agent.h`).

The development is a shallow embedding of the `player` class of `agent.h`:
pure fragments become Lean functions, the mutable search tree becomes an
inductive tree with path-indexed functional updates, and C++ `double`
arithmetic is modelled by exact real numbers.  The board representation and
the rules oracle live in `board.h`/`action.h`, which the specification
declares external ("Rules Oracle (external)", section 2); every definition
that needs them is therefore parametric in an `apply` oracle
`Board → Place → Option Board` (`some` = legal, returning the board after
the placement; `none` = illegal, board untouched), exactly the contract of
spec section 4.1.
-/

set_option autoImplicit false
set_option maxRecDepth 10000

/-- Colors of `board::piece_type` that matter to the agent: a cell is black,
white or empty. -/
inductive GColor : Type where
  | black : GColor
  | white : GColor
  | empty : GColor
  deriving DecidableEq, Repr

/-- Turn flip as written in `agent.h` (`who == board::white ? board::black :
board::white`): white maps to black, anything else (black, and also empty)
maps to white. -/
def flipc (c : GColor) : GColor :=
  match c with
  | GColor.white => GColor.black
  | _ => GColor.white

/-- A placement `action::place(i, color)`: a cell index paired with the color
to place. -/
structure Place : Type where
  pos : Nat
  pcolor : GColor
  deriving DecidableEq, Repr

/-- A board is a row-major list of cells (spec section 6: index = row*9+col).
The rules oracle consuming it stays abstract. -/
abbrev GBoard := List GColor

/-- Cell access `state[i][j]` with index `i*9+j`; out-of-range reads as empty
(never exercised on full-size boards). -/
def cellAt (b : GBoard) (k : Nat) : GColor :=
  b.getD k GColor.empty

/-- Number of empty cells on the board. -/
def countEmpty : GBoard → Nat
  | [] => 0
  | c :: r => (if c = GColor.empty then 1 else 0) + countEmpty r

/-- Number of stones (non-empty cells) on the board. -/
def countStones : GBoard → Nat
  | [] => 0
  | c :: r => (if c = GColor.empty then 0 else 1) + countStones r

/-- The candidate vector for color `c`: the constructor of `player` fills
`space`/`white_space`/`black_space` with `action::place(i, c)` for
`i < board::size_x * board::size_y = 81`. -/
def spaceVec (c : GColor) : List Place :=
  (List.range 81).map (fun i => ⟨i, c⟩)

/-- Empty-cell count as read by the `step` loop of `take_action`: the number
of indices `k < 81` whose cell is empty. -/
def countEmpty81 (b : GBoard) : Nat :=
  (List.range 81).countP (fun k => decide (cellAt b k = GColor.empty))

/-- Scan a candidate vector in order and return the first placement the
oracle accepts, together with the resulting board.  This is the
shuffle-and-scan idiom of `Simulation` and of random mode: the shuffled
order is the `order` argument. -/
def firstLegal (ap : GBoard → Place → Option GBoard) :
    List Place → GBoard → Option (Place × GBoard)
  | [], _ => none
  | p :: ps, b =>
    match ap b p with
    | some b2 => some (p, b2)
    | none => firstLegal ap ps b

/-- Whether color `c` has any legal placement on `b` (scanning the full
81-entry candidate vector). -/
def hasLegalMove (ap : GBoard → Place → Option GBoard) (b : GBoard) (c : GColor) : Bool :=
  (spaceVec c).any (fun p => (ap b p).isSome)

/-- The playout loop of `player::Simulation`, with explicit fuel.  State `b`,
last mover `w` (the node's `who`), ply counter `k` (also indexing the
per-ply shuffled candidate orders `orders k turn`).  Each round flips the
turn, scans the shuffled candidate vector of the turn color, applies the
first legal placement and continues; when no placement is legal the loop
ends and the winner is the opposite color of the stuck side (the final
double flip of `Simulation`).  Returns `(winner, final ply counter, final
board)`, or `none` if fuel runs out (which the termination theorem rules
out). -/
def simFuel (ap : GBoard → Place → Option GBoard) (orders : Nat → GColor → List Place) :
    Nat → GBoard → GColor → Nat → Option (GColor × Nat × GBoard)
  | 0, _, _, _ => none
  | f + 1, b, w, k =>
    let turn := flipc w
    match firstLegal ap (orders k turn) b with
    | some pb => simFuel ap orders f pb.2 turn (k + 1)
    | none => some (flipc turn, k, b)

/-- Random mode of `take_action`: shuffle `space` (the shuffled order is the
`order` argument), return the first legal placement, else the null action
(`none`). -/
def randomAction (ap : GBoard → Place → Option GBoard) (b : GBoard)
    (order : List Place) : Option Place :=
  order.find? (fun p => (ap b p).isSome)

/-- The phase computation of `take_action`: `step` starts at 73 and is
decremented once for every empty cell found by the nested 9-by-9 loop over
`state[i][j]`. -/
def stepOf (b : GBoard) : Int :=
  (List.range 9).foldl
    (fun s i =>
      (List.range 9).foldl
        (fun t j => if cellAt b (i * 9 + j) = GColor.empty then t - 1 else t) s)
    73

/-- The 36-entry `time_management` table of `agent.h` (seconds per phase). -/
def timeManagementTable : List ℚ :=
  [0.5, 0.5, 0.5, 0.5, 0.8, 0.8, 0.8, 0.8,
   1.0, 1.0, 1.0, 1.0, 1.5, 1.5, 1.5, 1.5,
   2.0, 2.0, 2.0, 2.0, 1.5, 1.5, 1.5, 1.5,
   1.0, 1.0, 1.0, 1.0, 0.8, 0.8, 0.8, 0.8,
   0.5, 0.5, 0.5, 0.5]

/-- The table index `step/2` computed with C++ `int` division (truncation
toward zero, `Int.div`). -/
def phaseIdx (b : GBoard) : Int :=
  Int.tdiv (stepOf b) 2

/-- The per-move time cap `time_management[step/2]`.  The C++ read has no
bounds check; an out-of-range index is undefined behaviour, modelled here as
`none`. -/
def timeCap (b : GBoard) : Option ℚ :=
  if 0 ≤ phaseIdx b ∧ phaseIdx b < 36 then
    timeManagementTable.get? (phaseIdx b).toNat
  else
    none

/-- The empty 9-by-9 board. -/
def emptyBoard81 : GBoard := List.replicate 81 GColor.empty


/-- A search-tree node (class `Node` of `agent.h`): visit count `total`, win
count `win`, the cached UCB score `ucb`, the move that produced the node,
the color that moved into it is the opposite of `who` (`who` is the color
that moves next from the node, i.e. the node's `side_to_move` is `flipc
who`... in `agent.h` `who` is the color OF the move stored in children, see
`Expansion`), the board `state` after that move, and the ordered child
list.  The C++ `parent` pointer is replaced by path-indexed updates; the
score type `σ` abstracts `double` (instantiated with `ℝ` for the UCB
formula and with `ℚ` for executable witnesses). -/
inductive NodeG (σ : Type) : Type where
  | mk (total win : Nat) (ucb : σ) (move : Place) (who : GColor)
      (state : GBoard) (children : List (NodeG σ)) : NodeG σ

/-- Visit counter of a node (`Node::total`). -/
def NodeG.total {σ : Type} : NodeG σ → Nat
  | .mk t _ _ _ _ _ _ => t

/-- Win counter of a node (`Node::win`). -/
def NodeG.win {σ : Type} : NodeG σ → Nat
  | .mk _ w _ _ _ _ _ => w

/-- Cached UCB score of a node (`Node::ucb`, initialised to `10e9`). -/
def NodeG.ucb {σ : Type} : NodeG σ → σ
  | .mk _ _ u _ _ _ _ => u

/-- Move that produced the node (`Node::move`). -/
def NodeG.move {σ : Type} : NodeG σ → Place
  | .mk _ _ _ m _ _ _ => m

/-- The `Node::who` field: the color of the moves used to expand this node's
children. -/
def NodeG.who {σ : Type} : NodeG σ → GColor
  | .mk _ _ _ _ w _ _ => w

/-- Board stored in the node (`Node::state`). -/
def NodeG.state {σ : Type} : NodeG σ → GBoard
  | .mk _ _ _ _ _ s _ => s

/-- Ordered child list of the node (`Node::children`). -/
def NodeG.children {σ : Type} : NodeG σ → List (NodeG σ)
  | .mk _ _ _ _ _ _ cs => cs

/-- Replace the child list, all other fields untouched. -/
def NodeG.withChildren {σ : Type} : NodeG σ → List (NodeG σ) → NodeG σ
  | .mk t w u m h s _, cs => .mk t w u m h s cs

/-- Replace the visit counter, all other fields untouched. -/
def NodeG.setTotal {σ : Type} : NodeG σ → Nat → NodeG σ
  | .mk _ w u m h s cs, t => .mk t w u m h s cs

/-- Apply `f` to the element at index `i`, if any. -/
def modifyAt {α : Type} : List α → Nat → (α → α) → List α
  | [], _, _ => []
  | a :: l, 0, f => f a :: l
  | a :: l, i + 1, f => a :: modifyAt l i f

/-- The node reached from `n` by following the child indices in `p`. -/
def nodeAt {σ : Type} : NodeG σ → List Nat → Option (NodeG σ)
  | n, [] => some n
  | n, i :: is =>
    match n.children.get? i with
    | some c => nodeAt c is
    | none => none

/-- One node update of `player::BackPropagation`: `total++`, `win++` if the
iteration's `win` flag is set, then the cached score is recomputed from the
NEW counters (`upd newWin newTotal` abstracts the `double` formula, which
also closes over the iteration's `total_count`). -/
def updStats {σ : Type} (upd : Nat → Nat → σ) (w : Bool) (n : NodeG σ) : NodeG σ :=
  match n with
  | .mk t wn _ m h s cs =>
    .mk (t + 1) (wn + (if w then 1 else 0)) (upd (wn + (if w then 1 else 0)) (t + 1)) m h s cs

/-- Path-indexed form of `player::BackPropagation(root, node, win, total_count)`.
The C++ walks `node = selected; while (node != root) { update(node); node =
node->parent; }`: it updates exactly the nodes strictly below the root on
the root-to-selected path, all with the one `win` flag of the iteration.
Here the walk is top-down along the child-index path `p` (the same set of
nodes, updates are independent): the top node itself is NOT updated,
matching the `node != root` guard. -/
def backpropG {σ : Type} (upd : Nat → Nat → σ) (w : Bool) : NodeG σ → List Nat → NodeG σ
  | n, [] => n
  | n, i :: is =>
    n.withChildren (modifyAt n.children i (fun c => updStats upd w (backpropG upd w c is)))

/-- Exploration constant of `agent.h` (`double constant = 0.5`). -/
noncomputable def exploreConstant : ℝ := 0.5

/-- Initial cached score of a fresh node (`double ucb = 10e9`). -/
noncomputable def ucbInit : ℝ := 10e9

/-- The UCB score written by `BackPropagation`:
`(double)win/total + constant * sqrt(log(total_count)/total)`, with `double`
modelled by `ℝ`. -/
noncomputable def ucbFormula (totalCount win total : Nat) : ℝ :=
  (win : ℝ) / (total : ℝ) + exploreConstant * Real.sqrt (Real.log (totalCount : ℝ) / (total : ℝ))

/-- `player::BackPropagation` at score type `ℝ` with the source's formula. -/
noncomputable def BackPropagationR (w : Bool) (totalCount : Nat) (n : NodeG ℝ) (p : List Nat) : NodeG ℝ :=
  backpropG (ucbFormula totalCount) w n p

/-- The argmax scan of `player::Selection`: running best score (seeded with
the literal `-1`), running best index, current index; a child strictly
exceeding the running best replaces it, so ties keep the earlier index. -/
def scanIdx {σ : Type} [LinearOrder σ] (best : σ) (bi i : Nat) : List σ → Nat
  | [] => bi
  | u :: us => if best < u then scanIdx u i (i + 1) us else scanIdx best bi (i + 1) us

/-- Index of the child with maximal cached `ucb` as computed by the loop in
`player::Selection` (`max_ucb = -1; max_ucb_ind = 0; ...`); `neg1` is the
score-type image of the literal `-1`. -/
def maxUcbIdx {σ : Type} [LinearOrder σ] (neg1 : σ) (us : List σ) : Nat :=
  scanIdx neg1 0 0 us

/-- The descent loop of `player::Selection`: while the node has children,
move to the child with maximal cached `ucb`; return the path of chosen
child indices (the C++ returns the leaf itself; the leaf is `nodeAt` of
this path).  Fuel bounds the depth; the tree height always suffices. -/
def selPathF {σ : Type} [LinearOrder σ] (neg1 : σ) : Nat → NodeG σ → List Nat
  | 0, _ => []
  | f + 1, n =>
    if n.children.isEmpty then []
    else
      let i := maxUcbIdx neg1 (n.children.map NodeG.ucb)
      match n.children.get? i with
      | some c => i :: selPathF neg1 f c
      | none => []

/-- Children created by one `Expansion` scan: walk the candidate vector in
its current order, keep the placements the oracle accepts, and build for
each a fresh node (`total = 0`, `win = 0`, `ucb` at its initial value,
`who` = the color just placed, `state` = board after the move, no
children). -/
def expandKids {σ : Type} (ap : GBoard → Place → Option GBoard) (ucb0 : σ)
    (order : List Place) (st : GBoard) (cwho : GColor) : List (NodeG σ) :=
  order.filterMap (fun p => (ap st p).map (fun b2 => NodeG.mk 0 0 ucb0 p cwho b2 []))

/-- `player::Expansion(parent_node)`: if `who` is black, scan `white_space`
(current order `worder`) and append one child per legal white placement; if
`who` is white, likewise with `black_space` (`border`); otherwise do
nothing.  `emplace_back` appends to the EXISTING child list — there is no
guard against the node already having children. -/
def ExpansionG {σ : Type} (ap : GBoard → Place → Option GBoard) (ucb0 : σ)
    (worder border : List Place) (n : NodeG σ) : NodeG σ :=
  match n.who with
  | GColor.black => n.withChildren (n.children ++ expandKids ap ucb0 worder n.state GColor.white)
  | GColor.white => n.withChildren (n.children ++ expandKids ap ucb0 border n.state GColor.black)
  | GColor.empty => n

/-- Index-aligned totals aggregation of the p-mcts branch:
`roots[0]->children[i]->total += roots[idx]->children[i]->total` for
`i < roots[0]->children.size()`.  The C++ read is unchecked; a missing
index in the other tree (out-of-range access, undefined behaviour in the
source) is modelled as adding nothing. -/
def addKids {σ : Type} : List (NodeG σ) → List (NodeG σ) → List (NodeG σ)
  | [], _ => []
  | cs, [] => cs
  | c :: cs, oc :: ocs => (c.setTotal (c.total + oc.total)) :: addKids cs ocs

/-- Merge one worker tree into the accumulating first root. -/
def addTotals {σ : Type} (r0 rI : NodeG σ) : NodeG σ :=
  r0.withChildren (addKids r0.children rI.children)

/-- The p-mcts aggregation loop `for (idx = 1; idx < thread_num; idx++)`:
fold the remaining worker roots into `roots[0]`. -/
def aggregateRoots {σ : Type} : List (NodeG σ) → Option (NodeG σ)
  | [] => none
  | r0 :: rest => some (rest.foldl addTotals r0)

/-- The scan of `player::get_best_action`: running best count seeded with the
`int` literal `-1`, strict `>` keeps the first maximum; returns the stored
move, or the null action (`none`) if no child beat `-1`. -/
def bestScan : List (Nat × Place) → Option Place :=
  fun l =>
    (l.foldl
      (fun (acc : Int × Option Place) tm =>
        if acc.1 < (tm.1 : Int) then ((tm.1 : Int), some tm.2) else acc)
      (-1, none)).2

/-- `player::get_best_action(node)`: the move of the child with the highest
visit count, first occurrence winning ties; null action for a childless
node. -/
def getBestAction {σ : Type} (n : NodeG σ) : Option Place :=
  bestScan (n.children.map (fun c => (c.total, c.move)))

/-- Total visit count for move `m` across the worker trees, matching
children by move key: in each tree, the visit count of the first root child
whose move is `m` (0 if none). -/
def sumVisitsForMove {σ : Type} (rs : List (NodeG σ)) (m : Place) : Nat :=
  (rs.map (fun r =>
    match r.children.find? (fun c => decide (c.move = m)) with
    | some c => c.total
    | none => 0)).sum

/-- Modelled from the spec: the aggregation rule of sections 4.8 and 8
("align the K root children by `move` and sum their `visits` across trees",
then argmax).  Candidate moves are the first root's children in order; this
definition is the comparison point for the index-aligned aggregation the
code performs. -/
def specBestByKey {σ : Type} : List (NodeG σ) → Option Place
  | [] => none
  | r0 :: rest =>
    bestScan (r0.children.map (fun c => (sumVisitsForMove (r0 :: rest) c.move, c.move)))

/-- Modelled from the spec: a concrete instance of the external rules oracle
of `board.h` (section 4.1), used only to instantiate witnesses.  A
placement is accepted when it names an in-range empty cell and a real
color, and puts the stone there; this satisfies the oracle contract
(`some` mutates, `none` leaves the board untouched, placements depend on
the side).  NoGo's capture rules would only restrict legality further. -/
def apCells (b : GBoard) (p : Place) : Option GBoard :=
  if p.pos < b.length ∧ cellAt b p.pos = GColor.empty ∧ p.pcolor ≠ GColor.empty then
    some (b.set p.pos p.pcolor)
  else
    none

/-- Concrete grandchild node for the backpropagation counterexample: a
black move (black moved into it), so white is to move from it. -/
noncomputable def c1TreeY : NodeG ℝ :=
  NodeG.mk 0 0 ucbInit ⟨1, GColor.black⟩ GColor.black [] []

/-- Concrete child node: a white move from the root position. -/
noncomputable def c1TreeX : NodeG ℝ :=
  NodeG.mk 0 0 ucbInit ⟨0, GColor.white⟩ GColor.white [] [c1TreeY]

/-- Concrete root with `who = black` (the opponent's color, per the root
convention of `take_action`). -/
noncomputable def c1TreeRoot : NodeG ℝ :=
  NodeG.mk 0 0 ucbInit ⟨0, GColor.empty⟩ GColor.black [] [c1TreeX]

/-- Concrete one-child root for the root-counter counterexample. -/
noncomputable def c3Tree : NodeG ℝ :=
  NodeG.mk 0 0 ucbInit ⟨0, GColor.empty⟩ GColor.black []
    [NodeG.mk 0 0 ucbInit ⟨3, GColor.white⟩ GColor.white [] []]

/-- Concrete two-child node over `ℚ` scores for the selection witness. -/
def c2WitNode : NodeG ℚ :=
  NodeG.mk 0 0 0 ⟨0, GColor.empty⟩ GColor.black []
    [NodeG.mk 1 0 3 ⟨0, GColor.white⟩ GColor.white [] [],
     NodeG.mk 1 1 5 ⟨1, GColor.white⟩ GColor.white [] []]

/-- First fresh child (a white move at cell 0) for the staleness
counterexample. -/
noncomputable def c2CexA : NodeG ℝ :=
  NodeG.mk 0 0 ucbInit ⟨0, GColor.white⟩ GColor.white [] []

/-- Second fresh child (a white move at cell 1). -/
noncomputable def c2CexB : NodeG ℝ :=
  NodeG.mk 0 0 ucbInit ⟨1, GColor.white⟩ GColor.white [] []

/-- Freshly expanded root with two children, as after `Expansion(root)`. -/
noncomputable def c2CexT0 : NodeG ℝ :=
  NodeG.mk 0 0 ucbInit ⟨0, GColor.empty⟩ GColor.black [] [c2CexA, c2CexB]

/-- Tree after iteration 1's backpropagation (selected child 0, winning
playout, `total_count = 1`). -/
noncomputable def c2CexT1 : NodeG ℝ := BackPropagationR true 1 c2CexT0 [0]

/-- Tree after iteration 2's backpropagation (selected child 1, winning
playout, `total_count = 2`). -/
noncomputable def c2CexT2 : NodeG ℝ := BackPropagationR true 2 c2CexT1 [1]

/-- Concrete node for the expansion counterexample: black to expand, a
2-cell board with one empty cell, and one child already present. -/
def c10Node : NodeG ℚ :=
  NodeG.mk 0 0 0 ⟨0, GColor.empty⟩ GColor.black [GColor.empty, GColor.black]
    [NodeG.mk 0 0 0 ⟨5, GColor.white⟩ GColor.white [] []]

/-- First worker tree for the aggregation counterexample: root children
carry moves (0,white) then (1,white) with totals 5 and 4. -/
def c7rA : NodeG ℚ :=
  NodeG.mk 0 0 0 ⟨0, GColor.empty⟩ GColor.black []
    [NodeG.mk 5 0 0 ⟨0, GColor.white⟩ GColor.white [] [],
     NodeG.mk 4 0 0 ⟨1, GColor.white⟩ GColor.white [] []]

/-- Second worker tree: the same two moves in the OPPOSITE order, with
totals 5 and 0. -/
def c7rB : NodeG ℚ :=
  NodeG.mk 0 0 0 ⟨0, GColor.empty⟩ GColor.black []
    [NodeG.mk 5 0 0 ⟨1, GColor.white⟩ GColor.white [] [],
     NodeG.mk 0 0 0 ⟨0, GColor.white⟩ GColor.white [] []]

/-- Third worker tree with the SAME move order as the first, for the
amended-claim witness. -/
def c7rC : NodeG ℚ :=
  NodeG.mk 0 0 0 ⟨0, GColor.empty⟩ GColor.black []
    [NodeG.mk 2 0 0 ⟨0, GColor.white⟩ GColor.white [] [],
     NodeG.mk 7 0 0 ⟨1, GColor.white⟩ GColor.white [] []]

lemma flipc_flipc_flipc (c : GColor) : flipc (flipc (flipc c)) = flipc c := by
  cases c <;> rfl

lemma firstLegal_eq_none {ap : GBoard → Place → Option GBoard}
    {order : List Place} {b : GBoard} :
    firstLegal ap order b = none ↔ ∀ p ∈ order, ap b p = none := by
  induction order with
  | nil => simp [firstLegal]
  | cons p ps ih =>
    cases h : ap b p with
    | some b2 => simp [firstLegal, h]
    | none => simp [firstLegal, h, ih]

lemma firstLegal_some {ap : GBoard → Place → Option GBoard}
    {order : List Place} {b : GBoard} {p : Place} {b2 : GBoard}
    (h : firstLegal ap order b = some (p, b2)) :
    ap b p = some b2 ∧ p ∈ order := by
  induction order with
  | nil => simp [firstLegal] at h
  | cons q ps ih =>
    by_cases hq : (ap b q).isSome
    · obtain ⟨b3, hb3⟩ := Option.isSome_iff_exists.mp hq
      rw [firstLegal, hb3] at h
      obtain ⟨rfl, rfl⟩ : q = p ∧ b3 = b2 := by
        constructor <;> · injection h with h2; injection h2 <;> simp_all
      exact ⟨hb3, List.mem_cons_self _ _⟩
    · rw [Option.not_isSome_iff_eq_none] at hq
      rw [firstLegal, hq] at h
      obtain ⟨h1, h2⟩ := ih h
      exact ⟨h1, List.mem_cons_of_mem _ h2⟩

lemma hasLegalMove_false_iff {ap : GBoard → Place → Option GBoard}
    {b : GBoard} {c : GColor} :
    hasLegalMove ap b c = false ↔ ∀ p ∈ spaceVec c, ap b p = none := by
  simp [hasLegalMove, Option.not_isSome_iff_eq_none]

lemma spaceVec_pcolor {c : GColor} {p : Place} (hp : p ∈ spaceVec c) :
    p.pcolor = c := by
  obtain ⟨i, _, rfl⟩ := List.mem_map.mp hp
  rfl

lemma simFuel_le {ap : GBoard → Place → Option GBoard}
    {orders : Nat → GColor → List Place} :
    ∀ {f : Nat} {b : GBoard} {w : GColor} {k : Nat} {w2 : GColor} {n : Nat} {b2 : GBoard},
      simFuel ap orders f b w k = some (w2, n, b2) → k ≤ n := by
  intro f
  induction f with
  | zero => intro b w k w2 n b2 h; simp [simFuel] at h
  | succ f ih =>
    intro b w k w2 n b2 h
    rw [simFuel] at h
    cases hfl : firstLegal ap (orders k (flipc w)) b with
    | some pb =>
      rw [hfl] at h
      exact Nat.le_of_succ_le (ih h)
    | none =>
      rw [hfl] at h
      injection h with h2
      obtain ⟨rfl, rfl⟩ : n = k ∧ b2 = b := by
        constructor <;> · injection h2 with h3 h4 <;> simp_all
      exact Nat.le_refl _

lemma countEmpty_set_lt :
    ∀ (b : GBoard) (i : Nat) (c : GColor), i < b.length →
      cellAt b i = GColor.empty → c ≠ GColor.empty →
      countEmpty (b.set i c) < countEmpty b := by
  intro b
  induction b with
  | nil => intro i c hi; simp at hi
  | cons a r ih =>
    intro i c hi hcell hc
    cases i with
    | zero =>
      have ha : a = GColor.empty := hcell
      subst ha
      simp [countEmpty, hc]
    | succ j =>
      have hcell2 : cellAt r j = GColor.empty := hcell
      have hj : j < r.length := by simpa using hi
      have hlt := ih j c hj hcell2 hc
      show countEmpty (a :: r.set j c) < countEmpty (a :: r)
      simp only [countEmpty]
      exact Nat.add_lt_add_left hlt _

lemma apCells_decreases {b : GBoard} {p : Place} {b2 : GBoard}
    (h : apCells b p = some b2) : countEmpty b2 < countEmpty b := by
  rw [apCells] at h
  split at h
  · rename_i hcond
    injection h with h2
    subst h2
    exact countEmpty_set_lt b p.pos p.pcolor hcond.1 hcond.2.1 hcond.2.2
  · exact absurd h (by simp)

lemma countEmpty_add_countStones :
    ∀ b : GBoard, countEmpty b + countStones b = b.length := by
  intro b
  induction b with
  | nil => rfl
  | cons c r ih =>
    by_cases hc : c = GColor.empty <;> simp [countEmpty, countStones, hc] <;> omega

/-- C4: every playout terminates exactly when the color whose turn it is has
no legal placement on the simulated board, and the returned winner is the
opposite color of that side.  Formally, whenever `Simulation`'s loop
(embedded as `simFuel`) returns winner `w2` with final board `b2`, the side
to move at termination is `flipc w2` and it has no legal placement on `b2`;
moreover the loop stops at the very first ply (`n = k`) exactly when the
first side to move already has no legal placement.  The shuffled candidate
orders are arbitrary permutations of the full candidate vectors. -/
theorem c4_simulation_winner (ap : GBoard → Place → Option GBoard)
    (orders : Nat → GColor → List Place)
    (hperm : ∀ k c, (orders k c).Perm (spaceVec c)) :
    ∀ (f : Nat) (b : GBoard) (w : GColor) (k : Nat) (w2 : GColor) (n : Nat) (b2 : GBoard),
      simFuel ap orders f b w k = some (w2, n, b2) →
      hasLegalMove ap b2 (flipc w2) = false ∧
      (n = k ↔ hasLegalMove ap b (flipc w) = false) := by
  intro f
  induction f with
  | zero => intro b w k w2 n b2 h; simp [simFuel] at h
  | succ f ih =>
    intro b w k w2 n b2 h
    rw [simFuel] at h
    cases hfl : firstLegal ap (orders k (flipc w)) b with
    | none =>
      rw [hfl] at h
      obtain ⟨rfl, rfl, rfl⟩ : flipc (flipc w) = w2 ∧ k = n ∧ b = b2 := by
        refine ⟨?_, ?_, ?_⟩ <;> · injection h with h2 <;> injection h2 with h3 h4 <;> simp_all
      have hnol : ∀ p ∈ spaceVec (flipc w), ap b p = none := by
        intro p hp
        exact firstLegal_eq_none.mp hfl p ((hperm k (flipc w)).mem_iff.mpr hp)
      have hfalse : hasLegalMove ap b (flipc w) = false := hasLegalMove_false_iff.mpr hnol
      refine ⟨?_, by simp [hfalse]⟩
      rw [flipc_flipc_flipc]
      exact hfalse
    | some pb =>
      rw [hfl] at h
      obtain ⟨hres, hiff⟩ := ih _ _ _ _ _ _ h
      refine ⟨hres, ?_⟩
      have hk : k + 1 ≤ n := simFuel_le h
      have hp := firstLegal_some hfl
      have hmem : pb.1 ∈ spaceVec (flipc w) := (hperm k (flipc w)).mem_iff.mp hp.2
      have htrue : hasLegalMove ap b (flipc w) = true := by
        simp only [hasLegalMove, List.any_eq_true]
        exact ⟨pb.1, hmem, by simp [hp.1]⟩
      constructor
      · intro hn; omega
      · intro hfalse; rw [htrue] at hfalse; exact absurd hfalse (by simp)

/-- C4 witness: on the 4-cell board `[black, empty, empty, white]` with the
identity candidate orders, the playout runs white then black, then white is
stuck: the winner is black, the stuck side (white) has no legal placement
on the final board, and the loop did not stop at the first ply because
white did have a move initially. -/
theorem c4_simulation_winner_witness :
    (∀ k c, ((fun (_ : Nat) (c : GColor) => spaceVec c) k c).Perm (spaceVec c)) ∧
    (hasLegalMove apCells
        [GColor.black, GColor.white, GColor.black, GColor.white] (flipc GColor.black) = false ∧
      ((2 = 0) ↔ hasLegalMove apCells
        [GColor.black, GColor.empty, GColor.empty, GColor.white] (flipc GColor.black) = false)) :=
  ⟨fun _ _ => List.Perm.refl _,
    c4_simulation_winner apCells (fun _ c => spaceVec c) (fun _ _ => List.Perm.refl _)
      3 [GColor.black, GColor.empty, GColor.empty, GColor.white] GColor.black 0
      GColor.black 2 [GColor.black, GColor.white, GColor.black, GColor.white] (by decide)⟩

/-- C8: in random mode, `take_action` returns the null action iff the
agent's color has no legal placement on the board, and a non-null returned
action is a legal placement of the agent's color.  The shuffled candidate
vector is an arbitrary permutation of the agent's `space`. -/
theorem c8_random_null_iff (ap : GBoard → Place → Option GBoard) (b : GBoard)
    (who : GColor) (order : List Place) (horder : order.Perm (spaceVec who)) :
    ((randomAction ap b order = none) ↔ ∀ p ∈ spaceVec who, ap b p = none) ∧
    (∀ p, randomAction ap b order = some p →
      (ap b p).isSome = true ∧ p ∈ spaceVec who ∧ p.pcolor = who) := by
  constructor
  · rw [randomAction, List.find?_eq_none]
    constructor
    · intro h p hp
      have := h p (horder.mem_iff.mpr hp)
      simpa [Option.not_isSome_iff_eq_none] using this
    · intro h p hp
      have := h p (horder.mem_iff.mp hp)
      simp [this]
  · intro p hp
    rw [randomAction] at hp
    have h1 := List.find?_some hp
    have h2 : p ∈ order := List.mem_of_find?_eq_some hp
    have h3 : p ∈ spaceVec who := horder.mem_iff.mp h2
    exact ⟨by simpa using h1, h3, spaceVec_pcolor h3⟩

/-- C8 witness: on the board `[empty, white]` the scan in canonical order
returns the black placement at cell 0, which is legal for black; the
null-action characterisation holds at this input. -/
theorem c8_random_null_iff_witness :
    (spaceVec GColor.black).Perm (spaceVec GColor.black) ∧
    (((randomAction apCells [GColor.empty, GColor.white] (spaceVec GColor.black) = none) ↔
        ∀ p ∈ spaceVec GColor.black, apCells [GColor.empty, GColor.white] p = none) ∧
      (∀ p, randomAction apCells [GColor.empty, GColor.white] (spaceVec GColor.black) = some p →
        (apCells [GColor.empty, GColor.white] p).isSome = true ∧
          p ∈ spaceVec GColor.black ∧ p.pcolor = GColor.black)) :=
  ⟨List.Perm.refl _,
    c8_random_null_iff apCells [GColor.empty, GColor.white] GColor.black
      (spaceVec GColor.black) (List.Perm.refl _)⟩

/-- C9: every playout terminates in at most `81 - stones` plies, i.e. in at
most `countEmpty b` plies, whenever the rules oracle only accepts
placements that fill an empty cell (stated as the hypothesis that a legal
application strictly decreases the number of empty cells, which NoGo
legality guarantees).  With fuel `countEmpty b + 1` the loop always
returns, and the final ply counter exceeds the initial one by at most
`countEmpty b`; `countEmpty b = b.length - countStones b` (81 minus the
stones already placed, for a full-size board) by the bundled identity. -/
theorem c9_playout_bound (ap : GBoard → Place → Option GBoard)
    (orders : Nat → GColor → List Place)
    (hdec : ∀ b p b2, ap b p = some b2 → countEmpty b2 < countEmpty b) :
    (∀ b : GBoard, countEmpty b + countStones b = b.length) ∧
    ∀ (f : Nat) (b : GBoard) (w : GColor) (k : Nat), countEmpty b < f →
      ∃ w2 n b2, simFuel ap orders f b w k = some (w2, n, b2) ∧ n ≤ k + countEmpty b := by
  refine ⟨countEmpty_add_countStones, ?_⟩
  intro f
  induction f with
  | zero => intro b w k h; omega
  | succ f ih =>
    intro b w k hf
    cases hfl : firstLegal ap (orders k (flipc w)) b with
    | none =>
      refine ⟨flipc (flipc w), k, b, ?_, Nat.le_add_right _ _⟩
      rw [simFuel, hfl]
    | some pb =>
      have hap : ap b pb.1 = some pb.2 := (firstLegal_some hfl).1
      have hlt : countEmpty pb.2 < countEmpty b := hdec _ _ _ hap
      obtain ⟨w2, n, b2, hsim, hn⟩ := ih pb.2 (flipc w) (k + 1) (by omega)
      refine ⟨w2, n, b2, ?_, by omega⟩
      rw [simFuel, hfl]
      exact hsim

lemma foldl_sub_count (P : Nat → Prop) [DecidablePred P] :
    ∀ (l : List Nat) (s : Int),
      l.foldl (fun t j => if P j then t - 1 else t) s =
        s - (l.countP (fun j => decide (P j)) : Int) := by
  intro l
  induction l with
  | nil => intro s; simp
  | cons a l ih =>
    intro s
    by_cases h : P a <;>
      simp [List.countP_cons, h, ih] <;> push_cast <;> ring

lemma stepOf_eq_countEmpty81 (b : GBoard) :
    stepOf b = 73 - (countEmpty81 b : Int) := by
  have h1 : ∀ (m : Nat) (s : Int),
      (List.range m).foldl
        (fun s i =>
          (List.range 9).foldl
            (fun t j => if cellAt b (i * 9 + j) = GColor.empty then t - 1 else t) s) s =
        s - ((List.range (m * 9)).countP
              (fun k => decide (cellAt b k = GColor.empty)) : Int) := by
    intro m
    induction m with
    | zero => intro s; simp
    | succ m ih =>
      intro s
      have hr : List.range (m + 1) = List.range m ++ [m] := List.range_succ m
      rw [hr, List.foldl_append, ih, List.foldl_cons, List.foldl_nil,
        foldl_sub_count (fun j => cellAt b (m * 9 + j) = GColor.empty)]
      have h2 : (m + 1) * 9 = m * 9 + 9 := by ring
      rw [h2, List.range_add, List.countP_append, List.countP_map]
      simp only [Function.comp_def]
      push_cast
      ring
  exact h1 9 73

lemma countEmpty81_le (b : GBoard) : countEmpty81 b ≤ 81 := by
  calc countEmpty81 b ≤ (List.range 81).length := List.countP_le_length _
  _ = 81 := by simp

lemma tdiv2_bounds :
    ∀ s : Int, -8 ≤ s → s ≤ 73 →
      ((0 ≤ Int.tdiv s 2 ∧ Int.tdiv s 2 < 36) ↔ (-1 ≤ s ∧ s ≤ 71)) := by
  intro s h1 h2
  interval_cases s <;> decide

lemma timeCap_isSome_iff (b : GBoard) :
    (timeCap b).isSome = true ↔ (0 ≤ phaseIdx b ∧ phaseIdx b < 36) := by
  rw [timeCap]
  split
  · rename_i h
    have hlt : (phaseIdx b).toNat < timeManagementTable.length := by
      have := h.1
      have := h.2
      simp only [timeManagementTable]
      norm_num
      omega
    rw [List.get?_eq_get hlt]
    simp [h]
  · rename_i h
    simpa using h

/-- C5 counterexample: the claim says the phase value `step` equals the
number of stones placed so far (81 minus the empties).  On the empty board
there are 0 stones, but the loop of `take_action` starts its counter at 73,
not 81, and computes `step = 73 - 81 = -8`. -/
theorem c5_cex :
    stepOf emptyBoard81 = -8 ∧
    (81 : Int) - (countEmpty81 emptyBoard81 : Int) = 0 ∧
    stepOf emptyBoard81 ≠ 81 - (countEmpty81 emptyBoard81 : Int) := by
  decide

/-- C5 amended: the phase value computed by `take_action` is `73` minus the
number of empty cells (which is `stones - 8` on a full 9-by-9 board, not
the stone count), and the truncated index `step/2` reads the 36-entry
`time_management` table, the read being in bounds exactly when the board
has between 2 and 74 empty cells. -/
theorem c5_step_phase (b : GBoard) :
    stepOf b = 73 - (countEmpty81 b : Int) ∧
    ((timeCap b).isSome = true ↔ 2 ≤ countEmpty81 b ∧ countEmpty81 b ≤ 74) := by
  refine ⟨stepOf_eq_countEmpty81 b, ?_⟩
  rw [timeCap_isSome_iff]
  have he : countEmpty81 b ≤ 81 := countEmpty81_le b
  have hstep : stepOf b = 73 - (countEmpty81 b : Int) := stepOf_eq_countEmpty81 b
  have hb : (0 ≤ phaseIdx b ∧ phaseIdx b < 36) ↔
      (-1 ≤ stepOf b ∧ stepOf b ≤ 71) := by
    unfold phaseIdx
    exact tdiv2_bounds (stepOf b) (by omega) (by omega)
  rw [hb]
  omega

/-- C6: the spec asserts the phase-table index `step/2` is always within the
36-entry `time_management` table, but on the empty board (black's first
move, a guaranteed input) the code computes `step = -8` and index `-4`:
the C++ read `time_management[-4]` is out of bounds (undefined behaviour),
modelled by `timeCap` returning `none`. -/
theorem c6_phase_index_oob :
    stepOf emptyBoard81 = -8 ∧
    phaseIdx emptyBoard81 = -4 ∧
    ¬(0 ≤ phaseIdx emptyBoard81 ∧ phaseIdx emptyBoard81 < 36) ∧
    timeCap emptyBoard81 = none := by
  decide

/-- C9 witness: the oracle instance `apCells` satisfies the
empty-cell-decrease hypothesis, and on the board `[black, empty, empty,
white]` (2 empty cells) the playout with fuel 3 terminates within 2
plies. -/
theorem c9_playout_bound_witness :
    (∀ b p b2, apCells b p = some b2 → countEmpty b2 < countEmpty b) ∧
    (∀ b : GBoard, countEmpty b + countStones b = b.length) ∧
    ∃ w2 n b2,
      simFuel apCells (fun _ c => spaceVec c) 3
        [GColor.black, GColor.empty, GColor.empty, GColor.white] GColor.black 0 =
        some (w2, n, b2) ∧
      n ≤ 0 + countEmpty [GColor.black, GColor.empty, GColor.empty, GColor.white] :=
  ⟨fun _ _ _ h => apCells_decreases h,
    (c9_playout_bound apCells (fun _ c => spaceVec c)
        (fun _ _ _ h => apCells_decreases h)).1,
    (c9_playout_bound apCells (fun _ c => spaceVec c)
        (fun _ _ _ h => apCells_decreases h)).2
      3 [GColor.black, GColor.empty, GColor.empty, GColor.white] GColor.black 0 (by decide)⟩

@[simp] lemma NodeG.total_mk {σ : Type} (t w : Nat) (u : σ) (m : Place) (h : GColor)
    (s : GBoard) (cs : List (NodeG σ)) : (NodeG.mk t w u m h s cs).total = t := rfl

@[simp] lemma NodeG.win_mk {σ : Type} (t w : Nat) (u : σ) (m : Place) (h : GColor)
    (s : GBoard) (cs : List (NodeG σ)) : (NodeG.mk t w u m h s cs).win = w := rfl

@[simp] lemma NodeG.ucb_mk {σ : Type} (t w : Nat) (u : σ) (m : Place) (h : GColor)
    (s : GBoard) (cs : List (NodeG σ)) : (NodeG.mk t w u m h s cs).ucb = u := rfl

@[simp] lemma NodeG.move_mk {σ : Type} (t w : Nat) (u : σ) (m : Place) (h : GColor)
    (s : GBoard) (cs : List (NodeG σ)) : (NodeG.mk t w u m h s cs).move = m := rfl

@[simp] lemma NodeG.who_mk {σ : Type} (t w : Nat) (u : σ) (m : Place) (h : GColor)
    (s : GBoard) (cs : List (NodeG σ)) : (NodeG.mk t w u m h s cs).who = h := rfl

@[simp] lemma NodeG.state_mk {σ : Type} (t w : Nat) (u : σ) (m : Place) (h : GColor)
    (s : GBoard) (cs : List (NodeG σ)) : (NodeG.mk t w u m h s cs).state = s := rfl

@[simp] lemma NodeG.children_mk {σ : Type} (t w : Nat) (u : σ) (m : Place) (h : GColor)
    (s : GBoard) (cs : List (NodeG σ)) : (NodeG.mk t w u m h s cs).children = cs := rfl

@[simp] lemma NodeG.withChildren_children {σ : Type} (n : NodeG σ) (cs : List (NodeG σ)) :
    (n.withChildren cs).children = cs := by cases n; rfl

@[simp] lemma NodeG.withChildren_total {σ : Type} (n : NodeG σ) (cs : List (NodeG σ)) :
    (n.withChildren cs).total = n.total := by cases n; rfl

@[simp] lemma NodeG.withChildren_win {σ : Type} (n : NodeG σ) (cs : List (NodeG σ)) :
    (n.withChildren cs).win = n.win := by cases n; rfl

@[simp] lemma updStats_total {σ : Type} (upd : Nat → Nat → σ) (w : Bool) (n : NodeG σ) :
    (updStats upd w n).total = n.total + 1 := by cases n; rfl

@[simp] lemma updStats_win {σ : Type} (upd : Nat → Nat → σ) (w : Bool) (n : NodeG σ) :
    (updStats upd w n).win = n.win + (if w then 1 else 0) := by cases n; rfl

@[simp] lemma updStats_ucb {σ : Type} (upd : Nat → Nat → σ) (w : Bool) (n : NodeG σ) :
    (updStats upd w n).ucb = upd (n.win + (if w then 1 else 0)) (n.total + 1) := by
  cases n; rfl

@[simp] lemma updStats_children {σ : Type} (upd : Nat → Nat → σ) (w : Bool) (n : NodeG σ) :
    (updStats upd w n).children = n.children := by cases n; rfl

@[simp] lemma backpropG_total {σ : Type} (upd : Nat → Nat → σ) (w : Bool)
    (n : NodeG σ) (p : List Nat) : (backpropG upd w n p).total = n.total := by
  cases p <;> simp [backpropG]

@[simp] lemma backpropG_win {σ : Type} (upd : Nat → Nat → σ) (w : Bool)
    (n : NodeG σ) (p : List Nat) : (backpropG upd w n p).win = n.win := by
  cases p <;> simp [backpropG]

lemma modifyAt_get? {α : Type} :
    ∀ (l : List α) (i j : Nat) (f : α → α),
      (modifyAt l i f).get? j = if i = j then (l.get? j).map f else l.get? j := by
  intro l
  induction l with
  | nil => intro i j f; simp [modifyAt]
  | cons a l ih =>
    intro i j f
    cases i with
    | zero =>
      cases j with
      | zero => simp [modifyAt]
      | succ j => simp [modifyAt]
    | succ i =>
      cases j with
      | zero => simp [modifyAt]
      | succ j =>
        simp only [modifyAt, List.get?]
        rw [ih i j f]
        by_cases h : i = j <;> simp [h]

@[simp] lemma nodeAt_nil {σ : Type} (m : NodeG σ) : nodeAt m [] = some m := rfl

lemma nodeAt_cons_bind {σ : Type} (m : NodeG σ) (i : Nat) (p : List Nat) :
    nodeAt m (i :: p) = (m.children.get? i).bind (fun c => nodeAt c p) := by
  rw [nodeAt]
  cases h : m.children.get? i <;> simp [h]

lemma nodeAt_children_congr {σ : Type} {m m2 : NodeG σ} (h : m.children = m2.children) :
    ∀ {p : List Nat}, p ≠ [] → nodeAt m p = nodeAt m2 p := by
  intro p hp
  cases p with
  | nil => exact absurd rfl hp
  | cons j p2 => rw [nodeAt_cons_bind, nodeAt_cons_bind, h]

/-- C1 counterexample: take the concrete path root (who = black, the
opponent's color) -> X (who = white) -> Y (who = black), and a playout won
by white, so the iteration's flag is `win = (root.who != winner) = true`.
The code then increments `win` at BOTH X and Y (the flag is shared by the
whole path, it does not alternate), although Y's side to move is white = W
so the claim predicts no increment at Y; and the root's visit counter stays
0 although the claim says every node on the path up to the root gets
`visits += 1`. -/
theorem c1_cex :
    ((nodeAt (BackPropagationR true 1 c1TreeRoot [0, 0]) [0, 0]).map NodeG.win = some 1) ∧
    ((nodeAt c1TreeRoot [0, 0]).map (fun n => flipc n.who) = some GColor.white) ∧
    ((nodeAt (BackPropagationR true 1 c1TreeRoot [0, 0]) [0]).map NodeG.win = some 1) ∧
    ((nodeAt (BackPropagationR true 1 c1TreeRoot [0, 0]) []).map NodeG.total = some 0) :=
  ⟨rfl, rfl, rfl, rfl⟩

/-- C1 amended: during `BackPropagation` with winner `W`, the updated nodes
are exactly those strictly below the root on the selected path, and every
one of them gets `visits += 1` and `wins += 1` iff the single per-playout
flag `win = (root.who != W)` is set — the same flag for the whole path, so
wins do NOT alternate with depth, and the root is excluded.  Formally: for
every nonempty prefix `p` of the backpropagation path, the node at `p`
gets its visit counter incremented, its win counter incremented by the
flag, and its cached score rewritten by the UCB formula at the new
counters and the iteration's `total_count`. -/
theorem c1_backprop_path (w : Bool) (tc : Nat) :
    ∀ (p : List Nat) (t : NodeG ℝ) (rest : List Nat) (n : NodeG ℝ),
      p ≠ [] → nodeAt t p = some n →
      ((nodeAt (BackPropagationR w tc t (p ++ rest)) p).map NodeG.total =
          some (n.total + 1) ∧
        (nodeAt (BackPropagationR w tc t (p ++ rest)) p).map NodeG.win =
          some (n.win + (if w then 1 else 0)) ∧
        (nodeAt (BackPropagationR w tc t (p ++ rest)) p).map NodeG.ucb =
          some (ucbFormula tc (n.win + (if w then 1 else 0)) (n.total + 1))) := by
  intro p
  induction p with
  | nil => intro t rest n hp; exact absurd rfl hp
  | cons i p2 ih =>
    intro t rest n _ hn
    rw [nodeAt_cons_bind] at hn
    cases hget : t.children.get? i with
    | none => rw [hget] at hn; exact absurd hn (by simp)
    | some c =>
      rw [hget, Option.some_bind] at hn
      have hbp : BackPropagationR w tc t ((i :: p2) ++ rest) =
          t.withChildren (modifyAt t.children i
            (fun c2 => updStats (ucbFormula tc) w (BackPropagationR w tc c2 (p2 ++ rest)))) := by
        rw [BackPropagationR, List.cons_append, backpropG]
        rfl
      rw [hbp, nodeAt_cons_bind, NodeG.withChildren_children, modifyAt_get?, if_pos rfl,
        hget, Option.map_some', Option.some_bind]
      cases p2 with
      | nil =>
        rw [nodeAt_nil] at hn
        injection hn with hn2
        subst hn2
        simp [nodeAt_nil, BackPropagationR]
      | cons j p3 =>
        rw [nodeAt_children_congr (updStats_children (ucbFormula tc) w _) (by simp)]
        exact ih c rest n (by simp) hn

/-- C1 witness: applying the amended theorem to the concrete tree of the
counterexample at path `[0]` with `total_count = 2` yields the expected
updated counters and cached score on the root's child. -/
theorem c1_backprop_path_witness :
    (([0] : List Nat) ≠ []) ∧
    ((nodeAt (BackPropagationR true 2 c1TreeRoot ([0] ++ [])) [0]).map NodeG.total =
        some 1 ∧
      (nodeAt (BackPropagationR true 2 c1TreeRoot ([0] ++ [])) [0]).map NodeG.win =
        some 1 ∧
      (nodeAt (BackPropagationR true 2 c1TreeRoot ([0] ++ [])) [0]).map NodeG.ucb =
        some (ucbFormula 2 1 1)) :=
  ⟨by decide, c1_backprop_path true 2 [0] c1TreeRoot [] c1TreeX (by decide) rfl⟩

/-- C3 counterexample: one MCTS iteration (T = 1) backpropagates along the
path to the root's child, but the root's own visit counter is left at 0,
not 1: the loop guard `while (node != root)` never updates the root. -/
theorem c3_cex :
    (BackPropagationR true 1 c3Tree [0]).total = 0 ∧
    (BackPropagationR true 1 c3Tree [0]).total ≠ 1 := by
  constructor
  · rfl
  · intro h
    rw [show (BackPropagationR true 1 c3Tree [0]).total = 0 from rfl] at h
    exact absurd h (by decide)

/-- C3 amended: `BackPropagation` never touches the root's counters — after
any number of iterations `root.visits` is still its initial 0; the growing
exploration denominator the spec asks for is supplied by the loop-local
`total_count` variable passed into each `BackPropagation` call, not by
`root->total`. -/
theorem c3_root_not_incremented (w : Bool) (tc : Nat) (t : NodeG ℝ) (path : List Nat) :
    (BackPropagationR w tc t path).total = t.total ∧
    (BackPropagationR w tc t path).win = t.win := by
  rw [BackPropagationR]
  exact ⟨backpropG_total _ _ _ _, backpropG_win _ _ _ _⟩

lemma scanIdx_correct {σ : Type} [LinearOrder σ] :
    ∀ (us : List σ) (best : σ) (bi i : Nat),
      (scanIdx best bi i us = bi ∧ ∀ u ∈ us, u ≤ best) ∨
      (∃ j, ∃ hj : j < us.length, scanIdx best bi i us = i + j ∧
        best < us.get ⟨j, hj⟩ ∧
        (∀ k, ∀ hk : k < us.length, us.get ⟨k, hk⟩ ≤ us.get ⟨j, hj⟩) ∧
        (∀ k, ∀ hk : k < us.length, k < j → us.get ⟨k, hk⟩ < us.get ⟨j, hj⟩)) := by
  intro us
  induction us with
  | nil =>
    intro best bi i
    left
    exact ⟨rfl, by simp⟩
  | cons u tl ih =>
    intro best bi i
    by_cases h : best < u
    · have hrec : scanIdx best bi i (u :: tl) = scanIdx u i (i + 1) tl := by
        rw [scanIdx, if_pos h]
      rcases ih u i (i + 1) with ⟨heq, hle⟩ | ⟨j, hj, heq, hbest, hmax, hfirst⟩
      · right
        refine ⟨0, by simp, by rw [hrec, heq]; omega, h, ?_, ?_⟩
        · intro k hk
          cases k with
          | zero => exact le_refl _
          | succ k => exact hle _ (List.get_mem tl k (Nat.lt_of_succ_lt_succ hk))
        · intro k hk hk0
          exact absurd hk0 (by omega)
      · right
        have hj2 : j + 1 < (u :: tl).length := by simpa using Nat.succ_lt_succ hj
        refine ⟨j + 1, hj2, by rw [hrec, heq]; omega, lt_trans h hbest, ?_, ?_⟩
        · intro k hk
          cases k with
          | zero => exact le_of_lt hbest
          | succ k => exact hmax k (Nat.lt_of_succ_lt_succ hk)
        · intro k hk hklt
          cases k with
          | zero => exact hbest
          | succ k => exact hfirst k (Nat.lt_of_succ_lt_succ hk) (by omega)
    · have hrec : scanIdx best bi i (u :: tl) = scanIdx best bi (i + 1) tl := by
        rw [scanIdx, if_neg h]
      rcases ih best bi (i + 1) with ⟨heq, hle⟩ | ⟨j, hj, heq, hbest, hmax, hfirst⟩
      · left
        refine ⟨hrec.trans heq, ?_⟩
        intro v hv
        rcases List.mem_cons.mp hv with rfl | hv2
        · exact le_of_not_lt h
        · exact hle v hv2
      · right
        have hj2 : j + 1 < (u :: tl).length := by simpa using Nat.succ_lt_succ hj
        refine ⟨j + 1, hj2, by rw [hrec, heq]; omega, hbest, ?_, ?_⟩
        · intro k hk
          cases k with
          | zero => exact le_trans (le_of_not_lt h) (le_of_lt hbest)
          | succ k => exact hmax k (Nat.lt_of_succ_lt_succ hk)
        · intro k hk hklt
          cases k with
          | zero => exact lt_of_le_of_lt (le_of_not_lt h) hbest
          | succ k => exact hfirst k (Nat.lt_of_succ_lt_succ hk) (by omega)

lemma maxUcbIdx_first_argmax {σ : Type} [LinearOrder σ] (neg1 : σ) (us : List σ)
    (hne : us ≠ []) (hgt : ∀ u ∈ us, neg1 < u) :
    ∃ h : maxUcbIdx neg1 us < us.length,
      (∀ k, ∀ hk : k < us.length, us.get ⟨k, hk⟩ ≤ us.get ⟨maxUcbIdx neg1 us, h⟩) ∧
      (∀ k, ∀ hk : k < us.length, k < maxUcbIdx neg1 us →
        us.get ⟨k, hk⟩ < us.get ⟨maxUcbIdx neg1 us, h⟩) := by
  rcases scanIdx_correct us neg1 0 0 with ⟨_, hle⟩ | ⟨j, hj, heq, _, hmax, hfirst⟩
  · cases us with
    | nil => exact absurd rfl hne
    | cons u tl =>
      exact absurd (hle u (List.mem_cons_self u tl))
        (not_le.mpr (hgt u (List.mem_cons_self u tl)))
  · have hidx : maxUcbIdx neg1 us = j := by rw [maxUcbIdx, heq, Nat.zero_add]
    rw [hidx]
    exact ⟨hj, hmax, hfirst⟩

/-- C2 amended: at every selection step the score used to rank a child is
its CACHED `ucb` field — `10e9` for a never-backpropagated child (a large
sentinel, not +∞) and otherwise the UCB formula as of the LAST
backpropagation through that child — and `Selection` moves to the first
child whose cached score is maximal (strict `>` against the running best,
seeded with `-1`, keeps the earliest maximum).  Provided every cached
score exceeds the `-1` seed (always true in reachable trees, where scores
are either `10e9` or nonnegative), the chosen index is the first argmax of
the cached scores. -/
theorem c2_selection_cached {σ : Type} [LinearOrder σ] (neg1 : σ) (f : Nat) (n : NodeG σ)
    (hne : n.children ≠ []) (hgt : ∀ c ∈ n.children, neg1 < c.ucb) :
    ∃ h : maxUcbIdx neg1 (n.children.map NodeG.ucb) < n.children.length,
      (selPathF neg1 (f + 1) n).head? =
        some (maxUcbIdx neg1 (n.children.map NodeG.ucb)) ∧
      (∀ k, ∀ hk : k < n.children.length,
        (n.children.get ⟨k, hk⟩).ucb ≤
          (n.children.get ⟨maxUcbIdx neg1 (n.children.map NodeG.ucb), h⟩).ucb) ∧
      (∀ k, ∀ hk : k < n.children.length,
        k < maxUcbIdx neg1 (n.children.map NodeG.ucb) →
        (n.children.get ⟨k, hk⟩).ucb <
          (n.children.get ⟨maxUcbIdx neg1 (n.children.map NodeG.ucb), h⟩).ucb) := by
  have hne2 : n.children.map NodeG.ucb ≠ [] := by
    simpa using hne
  have hgt2 : ∀ u ∈ n.children.map NodeG.ucb, neg1 < u := by
    intro u hu
    obtain ⟨c, hc, rfl⟩ := List.mem_map.mp hu
    exact hgt c hc
  obtain ⟨h0, hmax, hfirst⟩ := maxUcbIdx_first_argmax neg1 (n.children.map NodeG.ucb) hne2 hgt2
  have hlen : (n.children.map NodeG.ucb).length = n.children.length :=
    List.length_map _ _
  have h : maxUcbIdx neg1 (n.children.map NodeG.ucb) < n.children.length := by
    rw [← hlen]; exact h0
  refine ⟨h, ?_, ?_, ?_⟩
  · rw [selPathF, if_neg (by simpa using hne)]
    show (match n.children.get? (maxUcbIdx neg1 (n.children.map NodeG.ucb)) with
      | some c => (maxUcbIdx neg1 (n.children.map NodeG.ucb)) :: selPathF neg1 f c
      | none => []).head? = _
    rw [List.get?_eq_get h]
    rfl
  · intro k hk
    have := hmax k (by rwa [hlen])
    rwa [List.get_map, List.get_map] at this
  · intro k hk hklt
    have := hfirst k (by rwa [hlen]) hklt
    rwa [List.get_map, List.get_map] at this

/-- C2 witness: on a concrete two-child node with cached scores 3 and 5,
`Selection` descends to index 1 — the first (and only) maximum — and every
other child's cached score is strictly below it. -/
theorem c2_selection_cached_witness :
    (c2WitNode.children ≠ []) ∧ (∀ c ∈ c2WitNode.children, (-1 : ℚ) < c.ucb) ∧
    ∃ h : maxUcbIdx (-1 : ℚ) (c2WitNode.children.map NodeG.ucb) < c2WitNode.children.length,
      (selPathF (-1 : ℚ) (0 + 1) c2WitNode).head? =
        some (maxUcbIdx (-1 : ℚ) (c2WitNode.children.map NodeG.ucb)) ∧
      (∀ k, ∀ hk : k < c2WitNode.children.length,
        (c2WitNode.children.get ⟨k, hk⟩).ucb ≤
          (c2WitNode.children.get
            ⟨maxUcbIdx (-1 : ℚ) (c2WitNode.children.map NodeG.ucb), h⟩).ucb) ∧
      (∀ k, ∀ hk : k < c2WitNode.children.length,
        k < maxUcbIdx (-1 : ℚ) (c2WitNode.children.map NodeG.ucb) →
        (c2WitNode.children.get ⟨k, hk⟩).ucb <
          (c2WitNode.children.get
            ⟨maxUcbIdx (-1 : ℚ) (c2WitNode.children.map NodeG.ucb), h⟩).ucb) :=
  ⟨by simp [c2WitNode], by decide,
    c2_selection_cached (-1 : ℚ) 0 c2WitNode (by simp [c2WitNode]) (by decide)⟩

lemma ucbFormula_111 : ucbFormula 1 1 1 = 1 := by
  rw [ucbFormula, exploreConstant]
  norm_num [Real.log_one, Real.sqrt_zero]

lemma one_lt_ucbFormula {tc : Nat} (h : 2 ≤ tc) : 1 < ucbFormula tc 1 1 := by
  rw [ucbFormula, exploreConstant]
  have h1 : (1 : ℝ) < (tc : ℝ) := by exact_mod_cast Nat.lt_of_lt_of_le (by norm_num) h
  have h3 : 0 < Real.sqrt (Real.log (tc : ℝ) / ((1 : Nat) : ℝ)) := by
    apply Real.sqrt_pos.mpr
    rw [Nat.cast_one, div_one]
    exact Real.log_pos h1
  have h4 : (0 : ℝ) < 0.5 * Real.sqrt (Real.log (tc : ℝ) / ((1 : Nat) : ℝ)) :=
    mul_pos (by norm_num) h3
  have h5 : ((1 : Nat) : ℝ) / ((1 : Nat) : ℝ) = 1 := by norm_num
  linarith

/-- C2 counterexample: the score `Selection` uses is a cached value, stale
with respect to the aggregate playout count.  Running the code's own first
two iterations on a fresh two-child root (iteration 1 selects child 0 —
the tie at the `10e9` sentinel, itself a finite stand-in for the claimed
+∞ — and iteration 2 selects child 1), child 0 enters iteration 3's
selection with visits 1, wins 1, but cached score `ucbFormula 1 1 1 = 1`,
computed from the stale count 1; the claim's formula at the current
aggregate count (2 completed playouts, or 3 counting the in-flight one)
differs from the value actually used, for every choice of reading. -/
theorem c2_cex :
    selPathF (-1 : ℝ) 1 c2CexT0 = [0] ∧
    selPathF (-1 : ℝ) 1 c2CexT1 = [1] ∧
    ((nodeAt c2CexT1 [1]).map NodeG.total = some 0 ∧
      (nodeAt c2CexT1 [1]).map NodeG.ucb = some ucbInit) ∧
    ((nodeAt c2CexT2 [0]).map NodeG.total = some 1 ∧
      (nodeAt c2CexT2 [0]).map NodeG.win = some 1 ∧
      (nodeAt c2CexT2 [0]).map NodeG.ucb = some (ucbFormula 1 1 1)) ∧
    ucbFormula 1 1 1 ≠ ucbFormula 2 1 1 ∧
    ucbFormula 1 1 1 ≠ ucbFormula 3 1 1 := by
  have hpos : (-1 : ℝ) < ucbInit := by norm_num [ucbInit]
  have hm0 : maxUcbIdx (-1 : ℝ) (c2CexT0.children.map NodeG.ucb) = 0 := by
    show maxUcbIdx (-1 : ℝ) [ucbInit, ucbInit] = 0
    rw [maxUcbIdx, scanIdx, if_pos hpos, scanIdx, if_neg (lt_irrefl _), scanIdx]
  have h111 : (-1 : ℝ) < ucbFormula 1 1 1 := by rw [ucbFormula_111]; norm_num
  have h1init : ucbFormula 1 1 1 < ucbInit := by rw [ucbFormula_111]; norm_num [ucbInit]
  have hm1 : maxUcbIdx (-1 : ℝ) (c2CexT1.children.map NodeG.ucb) = 1 := by
    show maxUcbIdx (-1 : ℝ) [ucbFormula 1 1 1, ucbInit] = 1
    rw [maxUcbIdx, scanIdx, if_pos h111, scanIdx, if_pos h1init, scanIdx]
  refine ⟨?_, ?_, ⟨rfl, rfl⟩, ⟨rfl, rfl, rfl⟩, ?_, ?_⟩
  · rw [selPathF, if_neg (by simp [c2CexT0])]
    simp only [hm0]
    rfl
  · rw [selPathF, if_neg (by simp [c2CexT1, BackPropagationR, backpropG, c2CexT0, modifyAt])]
    simp only [hm1]
    rfl
  · rw [ucbFormula_111]
    exact ne_of_lt (one_lt_ucbFormula (by norm_num))
  · rw [ucbFormula_111]
    exact ne_of_lt (one_lt_ucbFormula (by norm_num))

@[simp] lemma NodeG.withChildren_ucb {σ : Type} (n : NodeG σ) (cs : List (NodeG σ)) :
    (n.withChildren cs).ucb = n.ucb := by cases n; rfl

@[simp] lemma NodeG.withChildren_move {σ : Type} (n : NodeG σ) (cs : List (NodeG σ)) :
    (n.withChildren cs).move = n.move := by cases n; rfl

@[simp] lemma NodeG.withChildren_who {σ : Type} (n : NodeG σ) (cs : List (NodeG σ)) :
    (n.withChildren cs).who = n.who := by cases n; rfl

@[simp] lemma NodeG.withChildren_state {σ : Type} (n : NodeG σ) (cs : List (NodeG σ)) :
    (n.withChildren cs).state = n.state := by cases n; rfl

@[simp] lemma NodeG.setTotal_total {σ : Type} (n : NodeG σ) (t : Nat) :
    (n.setTotal t).total = t := by cases n; rfl

@[simp] lemma NodeG.setTotal_move {σ : Type} (n : NodeG σ) (t : Nat) :
    (n.setTotal t).move = n.move := by cases n; rfl

/-- C10 counterexample: `Expansion` has no guard against a node that
already has children — called on a node with one child and a position with
one legal white move, it appends a second child instead of being a no-op. -/
theorem c10_cex :
    (ExpansionG apCells (0 : ℚ) (spaceVec GColor.white) (spaceVec GColor.black)
        c10Node).children.length = 2 ∧
    c10Node.children.length = 1 ∧
    (ExpansionG apCells (0 : ℚ) (spaceVec GColor.white) (spaceVec GColor.black)
        c10Node).children ≠ c10Node.children := by
  have hE : (ExpansionG apCells (0 : ℚ) (spaceVec GColor.white) (spaceVec GColor.black)
      c10Node).children.length = 2 := by decide
  have hO : c10Node.children.length = 1 := by decide
  exact ⟨hE, hO, fun h => by rw [h, hO] at hE; exact absurd hE (by decide)⟩

/-- C10 amended: `Expansion` appends one fresh child per legal move of the
expanding color to the EXISTING child list (it never checks whether the
node already has children, so it is not a no-op on an expanded node unless
no move is legal); all non-children fields are untouched, the previous
children survive as a prefix, and every appended child is a fresh node
(zero counters, initial score, the expanding color, the board the oracle
produced for its move).  In the search flow the function happens to be
called only on childless leaves returned by `Selection`. -/
theorem c10_expansion_appends {σ : Type} (ap : GBoard → Place → Option GBoard)
    (u0 : σ) (wo bo : List Place) (n : NodeG σ) :
    (ExpansionG ap u0 wo bo n).total = n.total ∧
    (ExpansionG ap u0 wo bo n).win = n.win ∧
    (ExpansionG ap u0 wo bo n).ucb = n.ucb ∧
    (ExpansionG ap u0 wo bo n).move = n.move ∧
    (ExpansionG ap u0 wo bo n).who = n.who ∧
    (ExpansionG ap u0 wo bo n).state = n.state ∧
    (ExpansionG ap u0 wo bo n).children.take n.children.length = n.children ∧
    (∀ c ∈ (ExpansionG ap u0 wo bo n).children.drop n.children.length,
      ap n.state c.move = some c.state ∧ c.total = 0 ∧ c.win = 0 ∧ c.ucb = u0 ∧
      c.who = flipc n.who) := by
  have hkids : ∀ (order : List Place) (cw : GColor) (c : NodeG σ),
      c ∈ expandKids ap u0 order n.state cw →
      ap n.state c.move = some c.state ∧ c.total = 0 ∧ c.win = 0 ∧ c.ucb = u0 ∧
        c.who = cw := by
    intro order cw c hc
    obtain ⟨p, _, hp⟩ := List.mem_filterMap.mp hc
    cases hap : ap n.state p with
    | none => rw [hap] at hp; exact absurd hp (by simp)
    | some b2 =>
      rw [hap] at hp
      injection hp with hp2
      subst hp2
      simpa using hap
  cases hw : n.who with
  | black =>
    have hE : ExpansionG ap u0 wo bo n =
        n.withChildren (n.children ++ expandKids ap u0 wo n.state GColor.white) := by
      rw [ExpansionG, hw]
    rw [hE]
    refine ⟨by simp, by simp, by simp, by simp, by simp [hw], by simp, ?_, ?_⟩
    · rw [NodeG.withChildren_children, List.take_left]
    · rw [NodeG.withChildren_children, List.drop_left]
      intro c hc
      have := hkids _ _ c hc
      simpa [flipc] using this
  | white =>
    have hE : ExpansionG ap u0 wo bo n =
        n.withChildren (n.children ++ expandKids ap u0 bo n.state GColor.black) := by
      rw [ExpansionG, hw]
    rw [hE]
    refine ⟨by simp, by simp, by simp, by simp, by simp [hw], by simp, ?_, ?_⟩
    · rw [NodeG.withChildren_children, List.take_left]
    · rw [NodeG.withChildren_children, List.drop_left]
      intro c hc
      have := hkids _ _ c hc
      simpa [flipc] using this
  | empty =>
    have hE : ExpansionG ap u0 wo bo n = n := by
      rw [ExpansionG, hw]
    rw [hE]
    refine ⟨rfl, rfl, rfl, rfl, by rw [hw], rfl, List.take_length _, ?_⟩
    intro c hc
    rw [List.drop_length] at hc
    exact absurd hc (by simp)

/-- C10 witness: the appended-children description evaluated on the
counterexample node. -/
theorem c10_expansion_appends_witness :
    (ExpansionG apCells (0 : ℚ) (spaceVec GColor.white) (spaceVec GColor.black)
        c10Node).total = c10Node.total ∧
    (ExpansionG apCells (0 : ℚ) (spaceVec GColor.white) (spaceVec GColor.black)
        c10Node).win = c10Node.win ∧
    (ExpansionG apCells (0 : ℚ) (spaceVec GColor.white) (spaceVec GColor.black)
        c10Node).ucb = c10Node.ucb ∧
    (ExpansionG apCells (0 : ℚ) (spaceVec GColor.white) (spaceVec GColor.black)
        c10Node).move = c10Node.move ∧
    (ExpansionG apCells (0 : ℚ) (spaceVec GColor.white) (spaceVec GColor.black)
        c10Node).who = c10Node.who ∧
    (ExpansionG apCells (0 : ℚ) (spaceVec GColor.white) (spaceVec GColor.black)
        c10Node).state = c10Node.state ∧
    (ExpansionG apCells (0 : ℚ) (spaceVec GColor.white) (spaceVec GColor.black)
        c10Node).children.take c10Node.children.length = c10Node.children ∧
    (∀ c ∈ (ExpansionG apCells (0 : ℚ) (spaceVec GColor.white) (spaceVec GColor.black)
        c10Node).children.drop c10Node.children.length,
      apCells c10Node.state c.move = some c.state ∧ c.total = 0 ∧ c.win = 0 ∧
        c.ucb = (0 : ℚ) ∧ c.who = flipc c10Node.who) :=
  c10_expansion_appends apCells (0 : ℚ) (spaceVec GColor.white) (spaceVec GColor.black) c10Node

lemma addKids_map_move {σ : Type} :
    ∀ (cs os : List (NodeG σ)), (addKids cs os).map NodeG.move = cs.map NodeG.move := by
  intro cs
  induction cs with
  | nil => intro os; cases os <;> rfl
  | cons c cs2 ih =>
    intro os
    cases os with
    | nil => rfl
    | cons oc os2 => simp [addKids, ih]

lemma addKids_get?_some {σ : Type} :
    ∀ (cs os : List (NodeG σ)) (i : Nat) (c : NodeG σ), cs.get? i = some c →
      (addKids cs os).get? i =
        some (match os.get? i with
          | some oc => c.setTotal (c.total + oc.total)
          | none => c) := by
  intro cs
  induction cs with
  | nil => intro os i c h; simp at h
  | cons c0 cs2 ih =>
    intro os i c h
    cases os with
    | nil =>
      rw [show addKids (c0 :: cs2) ([] : List (NodeG σ)) = c0 :: cs2 from rfl, h]
      cases i <;> simp
    | cons oc os2 =>
      cases i with
      | zero =>
        injection h with h2
        subst h2
        rfl
      | succ i =>
        rw [show addKids (c0 :: cs2) (oc :: os2) =
          (c0.setTotal (c0.total + oc.total)) :: addKids cs2 os2 from rfl]
        simpa using ih os2 i c h

lemma addTotals_children_map_move {σ : Type} (r0 rI : NodeG σ) :
    (addTotals r0 rI).children.map NodeG.move = r0.children.map NodeG.move := by
  rw [addTotals, NodeG.withChildren_children, addKids_map_move]

lemma foldl_addTotals_map_move {σ : Type} :
    ∀ (rest : List (NodeG σ)) (r0 : NodeG σ),
      (rest.foldl addTotals r0).children.map NodeG.move = r0.children.map NodeG.move := by
  intro rest
  induction rest with
  | nil => intro r0; rfl
  | cons r rest2 ih =>
    intro r0
    rw [List.foldl_cons, ih, addTotals_children_map_move]

lemma aggregate_totals {σ : Type} :
    ∀ (rest : List (NodeG σ)) (r0 : NodeG σ),
      (∀ r ∈ rest, r.children.map NodeG.move = r0.children.map NodeG.move) →
      ∀ (i : Nat) (c0 : NodeG σ), r0.children.get? i = some c0 →
        ∃ c, (rest.foldl addTotals r0).children.get? i = some c ∧
          c.move = c0.move ∧
          c.total = c0.total +
            (rest.map (fun r => ((r.children.get? i).map NodeG.total).getD 0)).sum := by
  intro rest
  induction rest with
  | nil =>
    intro r0 _ i c0 h
    exact ⟨c0, h, rfl, by simp⟩
  | cons r rest2 ih =>
    intro r0 hmv i c0 h
    have hmvr : r.children.map NodeG.move = r0.children.map NodeG.move :=
      hmv r (List.mem_cons_self r rest2)
    have hlen : r.children.length = r0.children.length := by
      have := congrArg List.length hmvr
      simpa using this
    have hi : i < r0.children.length := by
      by_contra hcon
      rw [List.get?_eq_none.mpr (Nat.le_of_not_lt hcon)] at h
      exact absurd h (by simp)
    obtain ⟨oc, hoc⟩ : ∃ oc, r.children.get? i = some oc := by
      have h2 : i < r.children.length := by omega
      exact ⟨_, List.get?_eq_get h2⟩
    have hstep : (addTotals r0 r).children.get? i =
        some (c0.setTotal (c0.total + oc.total)) := by
      rw [addTotals, NodeG.withChildren_children]
      rw [addKids_get?_some r0.children r.children i c0 h, hoc]
    have hmv2 : ∀ r2 ∈ rest2,
        r2.children.map NodeG.move = (addTotals r0 r).children.map NodeG.move := by
      intro r2 hr2
      rw [addTotals_children_map_move]
      exact hmv r2 (List.mem_cons_of_mem _ hr2)
    obtain ⟨c, hc, hcm, hct⟩ := ih (addTotals r0 r) hmv2 i _ hstep
    refine ⟨c, by rwa [List.foldl_cons], by simpa using hcm, ?_⟩
    rw [hct]
    simp only [List.map_cons, List.sum_cons, NodeG.setTotal_total, hoc,
      Option.map_some', Option.getD_some]
    omega

lemma find?_move_at {σ : Type} :
    ∀ (cs : List (NodeG σ)), (cs.map NodeG.move).Nodup →
      ∀ (i : Nat) (m : Place), (cs.map NodeG.move).get? i = some m →
        cs.find? (fun c => decide (c.move = m)) = cs.get? i := by
  intro cs
  induction cs with
  | nil => intro _ i m hm; simp at hm
  | cons c cs2 ih =>
    intro hnd i m hm
    rw [List.map_cons] at hnd
    obtain ⟨hnotin, hnd2⟩ := List.nodup_cons.mp hnd
    cases i with
    | zero =>
      rw [List.map_cons] at hm
      injection hm with hm2
      subst hm2
      rw [List.find?_cons_of_pos _ (by simp)]
      rfl
    | succ i =>
      rw [List.map_cons] at hm
      have hm2 : (cs2.map NodeG.move).get? i = some m := by simpa using hm
      have hmem : m ∈ cs2.map NodeG.move := List.get?_mem hm2
      have hne : c.move ≠ m := by
        intro hcon
        rw [hcon] at hnotin
        exact hnotin hmem
      rw [List.find?_cons_of_neg _ (by simpa using hne)]
      simpa using ih hnd2 i m hm2

lemma sumVisits_at {σ : Type} (r0 : NodeG σ) (rest : List (NodeG σ))
    (hmv : ∀ r ∈ rest, r.children.map NodeG.move = r0.children.map NodeG.move)
    (hnd : (r0.children.map NodeG.move).Nodup)
    (i : Nat) (c0 : NodeG σ) (hc0 : r0.children.get? i = some c0) :
    sumVisitsForMove (r0 :: rest) c0.move =
      c0.total +
        (rest.map (fun r => ((r.children.get? i).map NodeG.total).getD 0)).sum := by
  have hm : (r0.children.map NodeG.move).get? i = some c0.move := by
    rw [List.get?_map, hc0]
    rfl
  have h0 : r0.children.find? (fun c => decide (c.move = c0.move)) = some c0 := by
    rw [find?_move_at r0.children hnd i c0.move hm, hc0]
  rw [sumVisitsForMove, List.map_cons, List.sum_cons, h0]
  congr 1
  apply congrArg List.sum
  apply List.map_congr_left
  intro r hr
  have hfr : r.children.find? (fun c => decide (c.move = c0.move)) = r.children.get? i := by
    apply find?_move_at r.children
    · rw [hmv r hr]; exact hnd
    · rw [hmv r hr]; exact hm
  rw [hfr]
  cases hg : r.children.get? i <;> simp

lemma foldl_addTotals_length {σ : Type} :
    ∀ (rest : List (NodeG σ)) (r0 : NodeG σ),
      (rest.foldl addTotals r0).children.length = r0.children.length := by
  intro rest
  induction rest with
  | nil => intro r0; rfl
  | cons r rest2 ih =>
    intro r0
    have h := congrArg List.length (foldl_addTotals_map_move (r :: rest2) r0)
    simpa using h

/-- C7 counterexample: the p-mcts aggregation loop adds child totals BY
INDEX (`roots[0]->children[i]->total += roots[idx]->children[i]->total`),
not by move key.  With two worker trees holding the same two root moves in
different orders (the candidate vectors are shared between the worker
threads and shuffled concurrently by their playouts, so a common order is
not guaranteed), the index-summed argmax returns move (0,white) while the
key-matched aggregation of the spec returns move (1,white). -/
theorem c7_cex :
    (aggregateRoots [c7rA, c7rB]).map getBestAction = some (some ⟨0, GColor.white⟩) ∧
    specBestByKey [c7rA, c7rB] = some ⟨1, GColor.white⟩ ∧
    (⟨0, GColor.white⟩ : Place) ≠ ⟨1, GColor.white⟩ := by
  decide

/-- C7 amended: the returned p-mcts move is the argmax of INDEX-aligned
summed visit counts; this equals the spec's key-matched aggregation
exactly when every worker's root children list carries the same moves in
the same order (and root moves are distinct, as they are for distinct
board cells).  Under those hypotheses the aggregated tree's best action
equals the key-matched argmax. -/
theorem c7_keyed_aggregation {σ : Type} (r0 : NodeG σ) (rest : List (NodeG σ))
    (hmv : ∀ r ∈ rest, r.children.map NodeG.move = r0.children.map NodeG.move)
    (hnd : (r0.children.map NodeG.move).Nodup) :
    ∀ agg, aggregateRoots (r0 :: rest) = some agg →
      getBestAction agg = specBestByKey (r0 :: rest) := by
  intro agg hagg
  rw [aggregateRoots] at hagg
  injection hagg with hagg2
  subst hagg2
  rw [getBestAction, specBestByKey]
  congr 1
  apply List.ext_get?
  intro i
  rw [List.get?_map, List.get?_map]
  cases hc0 : r0.children.get? i with
  | none =>
    have hlen : (rest.foldl addTotals r0).children.length = r0.children.length :=
      foldl_addTotals_length rest r0
    have hnone : (rest.foldl addTotals r0).children.get? i = none := by
      rw [List.get?_eq_none] at hc0 ⊢
      omega
    rw [hnone]
    rfl
  | some c0 =>
    obtain ⟨c, hc, hcm, hct⟩ := aggregate_totals rest r0 hmv i c0 hc0
    rw [hc, Option.map_some', Option.map_some']
    rw [sumVisits_at r0 rest hmv hnd i c0 hc0]
    rw [← hct, ← hcm]

/-- C7 witness: two worker trees with identical root-children move order
and distinct moves; the index-aligned aggregation and the key-matched
aggregation agree (both pick move (1,white), summed visits 4 + 7 = 11). -/
theorem c7_keyed_aggregation_witness :
    (∀ r ∈ [c7rC], r.children.map NodeG.move = c7rA.children.map NodeG.move) ∧
    (c7rA.children.map NodeG.move).Nodup ∧
    getBestAction (List.foldl addTotals c7rA [c7rC]) = specBestByKey [c7rA, c7rC] :=
  ⟨by decide, by decide,
    c7_keyed_aggregation c7rA [c7rC] (by decide) (by decide)
      (List.foldl addTotals c7rA [c7rC]) rfl⟩
